import Mathlib

/-!
Verification development for the AI-Meeting-Assistant repository
(single source file `app.py`).

The embedding below models the algorithmic core of `app.py`:

* `pySplit` models Python's `text.split()` (whitespace-delimited words),
  `pyJoin` models `" ".join(...)`, `pyStrip` models `str.strip()`.
* `chunkFuel` is the while-loop of `chunk_text_by_words` (app.py lines
  46-53), written with explicit fuel because the Python loop does not
  terminate for `overlap >= max_words`; `none` means the loop did not
  finish within the given number of iterations.  `chunk_text_by_words`
  runs the loop with fuel `len(words) + 1`, which is proved sufficient
  whenever `overlap < max_words`.
* `summarize_long_text` (app.py lines 56-74) is modelled with the
  Summarizer capability as a pure function
  `S : input → max_length → min_length → summary`; it additionally
  returns the ordered trace of summarizer calls so that call-count and
  call-order properties are expressible.
* `extract_entities_and_actions` (app.py lines 77-92) is modelled with
  the spaCy pipeline as an optional pure function producing a `Doc` of
  labeled entity spans and sentences.
* `run_clicked_handler` models the body of the `if run_clicked:` block
  (app.py lines 132-172): the guard `if user_text.strip():` and the
  warning branch; the third component of its result is the list of
  texts the entity-extraction capability is invoked on.
-/

set_option maxRecDepth 10000

namespace App

/-- Whitespace test on characters, as used by Python `str.split()` with no
arguments and by `str.strip()`. -/
def isWs (c : Char) : Bool := c.isWhitespace

/-- One step of the whitespace splitter: a whitespace character starts a
new (initially empty) fragment, any other character is prepended to the
current first fragment. -/
def wsStep (c : Char) (r : List (List Char)) : List (List Char) :=
  if isWs c then [] :: r
  else
    match r with
    | [] => [[c]]
    | w :: r' => (c :: w) :: r'

/-- Split a character list at every whitespace character, keeping the
(possibly empty) fragments between separators. -/
def splitAllWs (l : List Char) : List (List Char) :=
  l.foldr wsStep [[]]

/-- Model of Python `text.split()` (app.py line 43): whitespace-delimited
words; runs of whitespace collapse and no empty words are produced. -/
def pySplit (s : String) : List String :=
  ((splitAllWs s.data).filter (fun w => !w.isEmpty)).map (fun w => String.mk w)

/-- Model of Python `" ".join(ws)` (app.py lines 49 and 72). -/
def pyJoin (ws : List String) : String :=
  String.mk (List.intercalate [' '] (ws.map String.data))

/-- Model of Python `s.strip()` (app.py lines 90 and 133): remove leading
and trailing whitespace. -/
def pyStrip (s : String) : String :=
  String.mk (((s.data.dropWhile isWs).reverse.dropWhile isWs).reverse)

/-- Model of the Python substring test `pat in s` on lists of characters. -/
def listContains (pat : List Char) : List Char → Bool
  | [] => pat.isEmpty
  | c :: cs => pat.isPrefixOf (c :: cs) || listContains pat cs

/-- Model of the Python substring test `pat in s` (app.py line 89). -/
def pyIn (pat s : String) : Bool := listContains pat.data s.data

/-- The while-loop of `chunk_text_by_words` (app.py lines 46-53), with
explicit fuel (one unit per loop iteration).  `words` is the word list,
`start` the cursor.  Each iteration takes `end = min(start + max_words,
len(words))`, emits `" ".join(words[start:end])`, stops if `end ==
len(words)`, and otherwise continues from `max(0, end - overlap)` (which
is `e - ov` in truncated natural subtraction).  `none` means the fuel ran
out before the loop finished. -/
def chunkFuel (words : List String) (maxW ov : Nat) : Nat → Nat → Option (List String)
  | 0, _ => none
  | fuel + 1, start =>
    if start < words.length then
      if min (start + maxW) words.length = words.length then
        some [pyJoin ((words.drop start).take (min (start + maxW) words.length - start))]
      else
        (chunkFuel words maxW ov fuel (min (start + maxW) words.length - ov)).map
          (fun rest => pyJoin ((words.drop start).take (min (start + maxW) words.length - start)) :: rest)
    else some []

/-- Embedding of `chunk_text_by_words` (app.py lines 42-53).  The source's
default parameters are `max_words=800, overlap=50`; call sites pass them
explicitly here.  The loop is run with fuel `len(words) + 1`, which is
sufficient whenever `overlap < max_words` (proved below), so `none` marks
exactly the configurations where the Python loop fails to make progress. -/
def chunk_text_by_words (text : String) (maxW ov : Nat) : Option (List String) :=
  let words := pySplit text
  if words.isEmpty then some []
  else chunkFuel words maxW ov (words.length + 1) 0

/-- The word-index ranges `[start, e)` traversed by the chunking loop;
same control flow as `chunkFuel`, which only depends on the word count. -/
def chunkRangesFuel (N maxW ov : Nat) : Nat → Nat → Option (List (Nat × Nat))
  | 0, _ => none
  | fuel + 1, start =>
    if start < N then
      if min (start + maxW) N = N then some [(start, min (start + maxW) N)]
      else
        (chunkRangesFuel N maxW ov fuel (min (start + maxW) N - ov)).map
          (fun rest => (start, min (start + maxW) N) :: rest)
    else some []

/-- Word-index ranges of the chunks produced by `chunk_text_by_words`. -/
def chunk_ranges_by_words (text : String) (maxW ov : Nat) : Option (List (Nat × Nat)) :=
  let words := pySplit text
  if words.isEmpty then some []
  else chunkRangesFuel words.length maxW ov (words.length + 1) 0

/-- The chunk string corresponding to a word-index range: Python
`" ".join(words[r.1:r.2])`. -/
def renderChunk (words : List String) (r : Nat × Nat) : String :=
  pyJoin ((words.drop r.1).take (r.2 - r.1))

/-- One call to the Summarizer capability: the input text and the
`max_length`/`min_length` decoding bounds passed to the pipeline. -/
structure SummCall where
  input : String
  max_length : Nat
  min_length : Nat
  deriving DecidableEq

/-- Embedding of `summarize_long_text` (app.py lines 56-74).  The
Summarizer capability is a pure function `S`; the second component of the
result is the ordered trace of Summarizer calls made.  The `none` branch
is unreachable because chunking with `max_words=800, overlap=50` always
terminates (`chunk800_isSome` below). -/
def summarize_long_text (S : String → Nat → Nat → String) (text : String) :
    String × List SummCall :=
  match chunk_text_by_words text 800 50 with
  | none => ("", [])
  | some [] => ("", [])
  | some [c] => (S c 130 50, [⟨c, 130, 50⟩])
  | some chunks =>
      let partials := chunks.map (fun c => S c 130 50)
      let combined := pyJoin partials
      (S combined 160 60,
        chunks.map (fun c => (⟨c, 130, 50⟩ : SummCall)) ++ [⟨combined, 160, 60⟩])

/-- A spaCy document, as used by `extract_entities_and_actions`: labeled
entity spans `(text, label)` in document order, and sentences in document
order. -/
structure Doc where
  ents : List (String × String)
  sents : List String

/-- The fixed action-item trigger phrases (app.py line 87). -/
def trigger_words : List String :=
  ["will", "must", "need to", "should", "action", "todo", "follow up"]

/-- Result of `extract_entities_and_actions` (app.py lines 77-92). -/
structure Entities where
  deadlines : List String
  people : List String
  action_items : List String
  deriving DecidableEq

/-- Embedding of `extract_entities_and_actions` (app.py lines 77-92).  The
spaCy pipeline is `nlp`; `none` models the unavailable capability
(`get_nlp()` returned `None`). -/
def extract_entities_and_actions (nlp : Option (String → Doc)) (text : String) : Entities :=
  match nlp with
  | none => ⟨[], [], []⟩
  | some f =>
      let doc := f text
      let deadlines := (doc.ents.filter (fun e => e.2 == "DATE" || e.2 == "TIME")).map
        (fun e => e.1)
      let people := (doc.ents.filter (fun e => e.2 == "PERSON")).map (fun e => e.1)
      let action_items := (doc.sents.filter
        (fun s => trigger_words.any (fun t => pyIn t s.toLower))).map pyStrip
      ⟨deadlines, people, action_items⟩

/-- Result dictionary of `analyze_notes` (app.py line 96). -/
structure AnalysisResult where
  summary : String
  deadlines : List String
  people : List String
  action_items : List String
  deriving DecidableEq

/-- Embedding of `analyze_notes` (app.py lines 95-96); also returns the
Summarizer call trace. -/
def analyze_notes (S : String → Nat → Nat → String) (nlp : Option (String → Doc))
    (text : String) : AnalysisResult × List SummCall :=
  let s := summarize_long_text S text
  let ents := extract_entities_and_actions nlp text
  (⟨s.1, ents.deadlines, ents.people, ents.action_items⟩, s.2)

/-- What the `if run_clicked:` block renders: either the warning prompt or
the analysis result cards. -/
inductive UIOutcome where
  | warning : String → UIOutcome
  | rendered : AnalysisResult → UIOutcome
  deriving DecidableEq

/-- Embedding of the `if run_clicked:` block (app.py lines 132-172): the
guard `if user_text.strip():` (truthiness of the stripped text) selects
between running `analyze_notes` and showing the warning prompt.  The
second component is the Summarizer call trace and the third the list of
texts the entity-extraction capability is invoked on. -/
def run_clicked_handler (S : String → Nat → Nat → String) (nlp : Option (String → Doc))
    (user_text : String) : UIOutcome × List SummCall × List String :=
  if pyStrip user_text ≠ "" then
    let r := analyze_notes S nlp user_text
    (UIOutcome.rendered r.1, r.2, [user_text])
  else
    (UIOutcome.warning "⚠️ Please paste some text first.", [], [])

/-- Concrete text consisting of `n` copies of the word "a", used to
evaluate the development on concrete inputs. -/
def textA (n : Nat) : String := pyJoin (List.replicate n "a")

/-! ### Lemmas about the word splitter and joiner -/

lemma splitAllWs_cons (c : Char) (l : List Char) :
    splitAllWs (c :: l) = wsStep c (splitAllWs l) := rfl

lemma wsStep_ws (c : Char) (hc : isWs c = true) (r : List (List Char)) :
    wsStep c r = [] :: r := by
  unfold wsStep
  rw [if_pos hc]

lemma foldr_wsStep_word :
    ∀ (w : List Char), (∀ c ∈ w, isWs c = false) →
    ∀ (v : List Char) (r : List (List Char)),
    List.foldr wsStep (v :: r) w = (w ++ v) :: r := by
  intro w
  induction w with
  | nil => intro _ v r; rfl
  | cons c w ih =>
    intro hw v r
    have hc : isWs c = false := hw c (List.mem_cons_self c w)
    simp only [List.foldr_cons]
    rw [ih (fun x hx => hw x (List.mem_cons_of_mem c hx)) v r]
    simp [wsStep, hc]

lemma splitAllWs_word (w : List Char) (hw : ∀ c ∈ w, isWs c = false) :
    splitAllWs w = [w] := by
  unfold splitAllWs
  rw [show ([[]] : List (List Char)) = [] :: [] from rfl, foldr_wsStep_word w hw [] []]
  simp

lemma splitAllWs_word_append (w : List Char) (hw : ∀ c ∈ w, isWs c = false)
    (rest : List Char) :
    splitAllWs (w ++ ' ' :: rest) = w :: splitAllWs rest := by
  unfold splitAllWs
  rw [List.foldr_append, List.foldr_cons, wsStep_ws ' ' (by decide),
    show ([[]] : List (List Char)) = [] :: [] from rfl]
  rw [show ([] : List Char) :: List.foldr wsStep ([] :: []) rest =
        [] :: List.foldr wsStep ([] :: []) rest from rfl,
    foldr_wsStep_word w hw [] _]
  simp

lemma splitAllWs_nonWs :
    ∀ (l : List Char), ∀ w ∈ splitAllWs l, ∀ c ∈ w, isWs c = false := by
  intro l
  induction l with
  | nil =>
    intro w hw c hc
    simp only [show splitAllWs [] = [[]] from rfl, List.mem_singleton] at hw
    subst hw
    simp at hc
  | cons a l ih =>
    intro w hw c hc
    rw [splitAllWs_cons] at hw
    unfold wsStep at hw
    cases ha : isWs a with
    | true =>
      rw [if_pos ha] at hw
      rcases List.mem_cons.mp hw with h | h
      · subst h; simp at hc
      · exact ih w h c hc
    | false =>
      rw [if_neg (by simp [ha])] at hw
      cases hsp : splitAllWs l with
      | nil =>
        rw [hsp] at hw
        simp only [List.mem_singleton] at hw
        subst hw
        simp only [List.mem_singleton] at hc
        subst hc
        exact ha
      | cons w' r' =>
        rw [hsp] at hw
        rcases List.mem_cons.mp hw with h | h
        · subst h
          rcases List.mem_cons.mp hc with h' | h'
          · subst h'; exact ha
          · exact ih w' (hsp ▸ List.mem_cons_self w' r') c h'
        · exact ih w (hsp ▸ List.mem_cons_of_mem w' h) c hc

lemma intercalate_single (x : Char) (a : List Char) :
    List.intercalate [x] [a] = a := by
  simp [List.intercalate]

lemma intercalate_cons_cons (x : Char) (a b : List Char) (t : List (List Char)) :
    List.intercalate [x] (a :: b :: t) = a ++ x :: List.intercalate [x] (b :: t) := by
  simp [List.intercalate, List.intersperse_cons_cons]

lemma splitAllWs_intercalate :
    ∀ (wls : List (List Char)),
    (∀ w ∈ wls, w ≠ [] ∧ ∀ c ∈ w, isWs c = false) →
    (splitAllWs (List.intercalate [' '] wls)).filter (fun w => !w.isEmpty) = wls := by
  intro wls
  induction wls with
  | nil => intro _; rfl
  | cons w t ih =>
    intro h
    obtain ⟨hw1, hw2⟩ := h w (List.mem_cons_self w t)
    have hwe : w.isEmpty = false := by
      cases w
      · exact absurd rfl hw1
      · rfl
    cases t with
    | nil =>
      rw [intercalate_single, splitAllWs_word w hw2]
      simp [List.filter_cons, hwe]
    | cons b t' =>
      rw [intercalate_cons_cons, splitAllWs_word_append w hw2, List.filter_cons]
      rw [ih (fun x hx => h x (List.mem_cons_of_mem w hx))]
      simp [hwe]

/-- Every word produced by `pySplit` is a nonempty string of
non-whitespace characters. -/
lemma pySplit_good (s : String) :
    ∀ w ∈ pySplit s, w.data ≠ [] ∧ ∀ c ∈ w.data, isWs c = false := by
  intro w hw
  unfold pySplit at hw
  rcases List.mem_map.mp hw with ⟨w', hw', rfl⟩
  rcases List.mem_filter.mp hw' with ⟨hmem, hne⟩
  refine ⟨?_, splitAllWs_nonWs s.data w' hmem⟩
  intro hnil
  rw [show (String.mk w').data = w' from rfl] at hnil
  subst hnil
  simp at hne

/-- Splitting the space-join of a list of nonempty whitespace-free words
recovers exactly that list: the round trip of `pySplit` after `pyJoin`. -/
lemma pySplit_pyJoin (ws : List String)
    (h : ∀ w ∈ ws, w.data ≠ [] ∧ ∀ c ∈ w.data, isWs c = false) :
    pySplit (pyJoin ws) = ws := by
  unfold pySplit pyJoin
  rw [show (String.mk (List.intercalate [' '] (ws.map String.data))).data =
        List.intercalate [' '] (ws.map String.data) from rfl]
  rw [splitAllWs_intercalate (ws.map String.data) ?_]
  · rw [List.map_map]
    exact List.map_id ws
  · intro w hw
    rcases List.mem_map.mp hw with ⟨w', hw', rfl⟩
    exact h w' hw'

/-- The word list of the concrete text `textA n`. -/
lemma pySplit_textA (n : Nat) : pySplit (textA n) = List.replicate n "a" := by
  unfold textA
  refine pySplit_pyJoin _ ?_
  intro w hw
  rcases List.mem_replicate.mp hw with ⟨-, rfl⟩
  exact ⟨by decide, by decide⟩

/-! ### Lemmas about the chunking loop -/

/-- The chunk strings are the renderings of the word-index ranges: both
loops share their control flow, which depends only on the word count. -/
lemma chunkFuel_eq_ranges (words : List String) (maxW ov : Nat) :
    ∀ fuel start, chunkFuel words maxW ov fuel start =
      (chunkRangesFuel words.length maxW ov fuel start).map
        (List.map (renderChunk words)) := by
  intro fuel
  induction fuel with
  | zero => intro start; rfl
  | succ fuel ih =>
    intro start
    simp only [chunkFuel, chunkRangesFuel]
    by_cases h1 : start < words.length
    · rw [if_pos h1, if_pos h1]
      by_cases he : min (start + maxW) words.length = words.length
      · rw [if_pos he, if_pos he]
        rfl
      · rw [if_neg he, if_neg he, ih]
        cases chunkRangesFuel words.length maxW ov fuel
          (min (start + maxW) words.length - ov) with
        | none => rfl
        | some rs => rfl
    · rw [if_neg h1, if_neg h1]
      rfl

/-- Every range emitted by the loop is nonempty, at most `maxW` words
wide, and ends within the word count; this needs no relation between
`ov` and `maxW`. -/
lemma rangesFuel_width (N maxW ov : Nat) (hmw : 0 < maxW) :
    ∀ fuel start rs, chunkRangesFuel N maxW ov fuel start = some rs →
    ∀ r ∈ rs, r.1 < r.2 ∧ r.2 - r.1 ≤ maxW ∧ r.2 ≤ N := by
  intro fuel
  induction fuel with
  | zero => intro start rs h; simp [chunkRangesFuel] at h
  | succ fuel ih =>
    intro start rs h
    simp only [chunkRangesFuel] at h
    by_cases h1 : start < N
    · rw [if_pos h1] at h
      by_cases he : min (start + maxW) N = N
      · rw [if_pos he] at h
        obtain rfl := Option.some.inj h
        intro r hr
        simp only [List.mem_singleton] at hr
        subst hr
        refine ⟨?_, ?_, ?_⟩
        · show start < min (start + maxW) N
          omega
        · show min (start + maxW) N - start ≤ maxW
          omega
        · show min (start + maxW) N ≤ N
          omega
      · rw [if_neg he] at h
        rcases Option.map_eq_some'.mp h with ⟨rs', hrec, hcons⟩
        subst hcons
        intro r hr
        rcases List.mem_cons.mp hr with rfl | hr'
        · refine ⟨?_, ?_, ?_⟩
          · show start < min (start + maxW) N
            omega
          · show min (start + maxW) N - start ≤ maxW
            omega
          · show min (start + maxW) N ≤ N
            omega
        · exact ih _ rs' hrec r hr'
    · rw [if_neg h1] at h
      obtain rfl := Option.some.inj h
      intro r hr
      simp at hr

/-- Structure of a terminating run of the chunking loop for
`ov < maxW`: the run succeeds given fuel exceeding the remaining word
count, the first range starts at the cursor, the last range ends at `N`,
consecutive ranges are linked by `next.start = prev.end - ov` with
strictly increasing ends, every range is nonempty of width
`min (start + maxW) N - start`, and the range count is bounded. -/
lemma rangesFuel_spec (N maxW ov : Nat) (hov : ov < maxW) :
    ∀ fuel start, start < N → N - start < fuel →
    ∃ rs, chunkRangesFuel N maxW ov fuel start = some rs ∧
      rs ≠ [] ∧
      rs.head? = some (start, min (start + maxW) N) ∧
      rs.getLast?.map Prod.snd = some N ∧
      List.Chain' (fun a b =>
        b.1 = a.2 - ov ∧ a.2 < b.2 ∧ a.2 < N ∧ a.2 = min (a.1 + maxW) N) rs ∧
      (∀ r ∈ rs, r.1 < r.2 ∧ r.2 = min (r.1 + maxW) N) ∧
      (maxW - ov) * (rs.length - 1) < N - start := by
  intro fuel
  induction fuel with
  | zero => intro start h1 h2; omega
  | succ fuel ih =>
    intro start h1 h2
    by_cases he : min (start + maxW) N = N
    · refine ⟨[(start, min (start + maxW) N)], ?_, by simp, by simp, ?_, ?_, ?_, ?_⟩
      · simp only [chunkRangesFuel]
        rw [if_pos h1, if_pos he]
      · simp [he]
      · exact List.chain'_singleton _
      · intro r hr
        simp only [List.mem_singleton] at hr
        subst hr
        exact ⟨by show start < min (start + maxW) N; omega, rfl⟩
      · simp
        omega
    · have hlt : start + maxW < N := by omega
      have h1' : start + maxW - ov < N := by omega
      have h2' : N - (start + maxW - ov) < fuel := by omega
      obtain ⟨rs', hsome', hne', hhead', hlast', hchain', hmem', hlen'⟩ :=
        ih (start + maxW - ov) h1' h2'
      obtain ⟨b, t, rfl⟩ : ∃ b t, rs' = b :: t := by
        cases rs' with
        | nil => exact absurd rfl hne'
        | cons b t => exact ⟨b, t, rfl⟩
      obtain rfl : b = (start + maxW - ov, min (start + maxW - ov + maxW) N) := by
        simpa using hhead'
      refine ⟨(start, min (start + maxW) N) ::
        (start + maxW - ov, min (start + maxW - ov + maxW) N) :: t,
        ?_, by simp, by simp, ?_, ?_, ?_, ?_⟩
      · simp only [chunkRangesFuel]
        rw [if_pos h1, if_neg he, show min (start + maxW) N - ov = start + maxW - ov by omega,
          hsome']
        rfl
      · rw [List.getLast?_cons_cons]
        exact hlast'
      · rw [List.chain'_cons]
        refine ⟨⟨?_, ?_, ?_, ?_⟩, hchain'⟩
        · show start + maxW - ov = min (start + maxW) N - ov
          omega
        · show min (start + maxW) N < min (start + maxW - ov + maxW) N
          omega
        · show min (start + maxW) N < N
          omega
        · show min (start + maxW) N = min (start + maxW) N
          rfl
      · intro r hr
        rcases List.mem_cons.mp hr with rfl | hr'
        · exact ⟨by show start < min (start + maxW) N; omega, rfl⟩
        · exact hmem' r hr'
      · have hx : (maxW - ov) *
            (((start, min (start + maxW) N) ::
              (start + maxW - ov, min (start + maxW - ov + maxW) N) :: t).length - 1) =
            (maxW - ov) * t.length + (maxW - ov) := by
          simp [Nat.mul_succ]
        have hy : (maxW - ov) *
            (((start + maxW - ov, min (start + maxW - ov + maxW) N) :: t).length - 1) =
            (maxW - ov) * t.length := by
          simp
        rw [hx]
        rw [hy] at hlen'
        generalize hA : (maxW - ov) * t.length = A at hlen' ⊢
        omega

/-- A successful run of the chunking loop needs only as much fuel as the
number of chunks it emits: one fuel unit per loop iteration. -/
lemma rangesFuel_mono (N maxW ov : Nat) :
    ∀ fuel start rs, start < N →
    chunkRangesFuel N maxW ov fuel start = some rs →
    ∀ fuel', rs.length ≤ fuel' →
    chunkRangesFuel N maxW ov fuel' start = some rs := by
  intro fuel
  induction fuel with
  | zero => intro start rs _ h2; simp [chunkRangesFuel] at h2
  | succ fuel ih =>
    intro start rs h1 h2 fuel' h3
    simp only [chunkRangesFuel] at h2
    rw [if_pos h1] at h2
    by_cases he : min (start + maxW) N = N
    · rw [if_pos he] at h2
      obtain rfl := Option.some.inj h2
      cases fuel' with
      | zero => simp at h3
      | succ f' =>
        simp only [chunkRangesFuel]
        rw [if_pos h1, if_pos he]
    · rw [if_neg he] at h2
      rcases Option.map_eq_some'.mp h2 with ⟨rs', hrec, hcons⟩
      subst hcons
      cases fuel' with
      | zero => simp at h3
      | succ f' =>
        have h1' : min (start + maxW) N - ov < N := by omega
        have h3' : rs'.length ≤ f' := by simpa using h3
        simp only [chunkRangesFuel]
        rw [if_pos h1, if_neg he, ih _ rs' h1' hrec f' h3']
        rfl

/-- The chunk strings of `chunk_text_by_words` are the renderings of the
ranges of `chunk_ranges_by_words`. -/
lemma chunk_text_eq_render (text : String) (maxW ov : Nat) :
    chunk_text_by_words text maxW ov =
      (chunk_ranges_by_words text maxW ov).map
        (List.map (renderChunk (pySplit text))) := by
  simp only [chunk_text_by_words, chunk_ranges_by_words]
  by_cases h : (pySplit text).isEmpty
  · rw [if_pos h, if_pos h]
    rfl
  · rw [if_neg h, if_neg h, chunkFuel_eq_ranges]

lemma chunk_ranges_empty (text : String) (maxW ov : Nat)
    (hN : (pySplit text).length = 0) :
    chunk_ranges_by_words text maxW ov = some [] := by
  simp only [chunk_ranges_by_words]
  rw [if_pos (by simpa [List.isEmpty_iff, List.length_eq_zero] using hN)]

lemma chunk_ranges_run (text : String) (maxW ov : Nat)
    (hN : (pySplit text).length ≠ 0) :
    chunk_ranges_by_words text maxW ov =
      chunkRangesFuel (pySplit text).length maxW ov ((pySplit text).length + 1) 0 := by
  simp only [chunk_ranges_by_words]
  rw [if_neg (by simpa [List.isEmpty_iff, List.length_eq_zero] using hN)]

/-- The space-join of a list headed by a nonempty word is nonempty. -/
lemma pyJoin_ne_empty (w : String) (ws : List String) (hw : w.data ≠ []) :
    pyJoin (w :: ws) ≠ "" := by
  intro h
  have hdata : (pyJoin (w :: ws)).data = ("" : String).data := by rw [h]
  simp only [pyJoin, List.map_cons] at hdata
  cases ws with
  | nil =>
    rw [List.map_nil, intercalate_single] at hdata
    exact hw hdata
  | cons b t =>
    rw [List.map_cons, intercalate_cons_cons] at hdata
    rcases List.append_eq_nil.mp hdata with ⟨h1, -⟩
    exact hw h1

/-- A chain of ranges linked by `next.start ≤ prev.end` whose first range
starts at `s` and whose last range ends at `N` covers every index in
`[s, N)`. -/
lemma chain_covers :
    ∀ (rs : List (Nat × Nat)) (s N : Nat),
    List.Chain' (fun a b => b.1 ≤ a.2) rs →
    rs.head?.map Prod.fst = some s →
    rs.getLast?.map Prod.snd = some N →
    ∀ i, s ≤ i → i < N → ∃ r ∈ rs, r.1 ≤ i ∧ i < r.2 := by
  intro rs
  induction rs with
  | nil => intro s N _ hh _ i _ _; simp at hh
  | cons a t ih =>
    intro s N hchain hh hl i hsi hiN
    have hs : a.1 = s := by simpa using hh
    cases t with
    | nil =>
      have hN : a.2 = N := by simpa using hl
      exact ⟨a, List.mem_cons_self a [], by omega, by omega⟩
    | cons b t' =>
      by_cases hia : i < a.2
      · exact ⟨a, List.mem_cons_self _ _, by omega, hia⟩
      · have hab : b.1 ≤ a.2 := (List.chain'_cons.mp hchain).1
        rw [List.getLast?_cons_cons] at hl
        obtain ⟨r, hr, h1, h2⟩ := ih b.1 N (List.chain'_cons.mp hchain).2
          (by simp) hl i (by omega) hiN
        exact ⟨r, List.mem_cons_of_mem a hr, h1, h2⟩

/-- Chunking with the fixed policy `max_words=800, overlap=50` always
terminates; hence the `none` branch of `summarize_long_text` is
unreachable. -/
lemma chunk800_isSome (text : String) : (chunk_text_by_words text 800 50).isSome := by
  rw [chunk_text_eq_render]
  by_cases hN : (pySplit text).length = 0
  · rw [chunk_ranges_empty text 800 50 hN]
    rfl
  · obtain ⟨rs, hrs, -, -, -, -, -, -⟩ :=
      rangesFuel_spec (pySplit text).length 800 50 (by omega)
        ((pySplit text).length + 1) 0 (by omega) (by omega)
    rw [chunk_ranges_run text 800 50 hN, hrs]
    rfl

/-! ### Claim theorems -/

/-- Claim C5: `chunk_text_by_words ""` returns the empty chunk sequence,
and `summarize_long_text ""` returns the empty string `""` while making
zero Summarizer calls (the empty-chunks case returns immediately with no
model call), for every Summarizer capability. -/
theorem empty_input_no_calls (S : String → Nat → Nat → String) :
    chunk_text_by_words "" 800 50 = some [] ∧
    summarize_long_text S "" = ("", []) :=
  ⟨rfl, rfl⟩

/-- Claim C10: when the EntityExtractor capability is unavailable (the
NLP pipeline is `none`), extraction returns empty lists for deadlines,
people and action items, and `analyze_notes` on any input still returns
a result containing the summary together with those empty lists; being a
total function, it never raises for the extraction part. -/
theorem extractor_unavailable_degraded (S : String → Nat → Nat → String) (text : String) :
    extract_entities_and_actions none text = ⟨[], [], []⟩ ∧
    (analyze_notes S none text).1 =
      ⟨(summarize_long_text S text).1, [], [], []⟩ :=
  ⟨rfl, rfl⟩

/-- Claim C9: on empty or whitespace-only input (the stripped text is
empty), the `run_clicked` entry point rejects the input before invoking
any capability — the Summarizer call trace and the list of
EntityExtractor invocations are both empty — and presents the
user-visible prompt to supply text. -/
theorem blank_input_rejected (S : String → Nat → Nat → String)
    (nlp : Option (String → Doc)) (t : String) (h : pyStrip t = "") :
    run_clicked_handler S nlp t =
      (UIOutcome.warning "⚠️ Please paste some text first.", [], []) := by
  unfold run_clicked_handler
  rw [if_neg (show ¬pyStrip t ≠ "" from fun hne => hne h)]

/-- Witness for claim C9 at the whitespace-only input `"  \n "`. -/
theorem blank_input_rejected_witness :
    run_clicked_handler (fun _ _ _ => "s") none "  \n " =
      (UIOutcome.warning "⚠️ Please paste some text first.", [], []) :=
  blank_input_rejected (fun _ _ _ => "s") none "  \n " (by decide)

/-- Claim C8: for `overlap ≥ max_words` (with `max_words > 0`) and an
input of more than `max_words` words, the cursor fails to advance — the
next start index `max(0, min(start + max_words, N) - overlap)` never
exceeds the current one — and the loop never terminates: it returns
`none` for every amount of fuel when started at cursor 0. -/
theorem overlap_ge_max_no_termination (text : String) (maxW ov fuel start : Nat)
    (h1 : 0 < maxW) (h2 : maxW ≤ ov) (h3 : maxW < (pySplit text).length) :
    min (start + maxW) (pySplit text).length - ov ≤ start ∧
    chunkFuel (pySplit text) maxW ov fuel 0 = none := by
  constructor
  · omega
  · induction fuel with
    | zero => rfl
    | succ fuel ih =>
      simp only [chunkFuel]
      rw [if_pos (by omega), if_neg (by omega),
        show min (0 + maxW) (pySplit text).length - ov = 0 by omega, ih]
      rfl

/-- Witness for claim C8: `max_words = 1`, `overlap = 1`, a three-word
input, fuel 7 and cursor 5. -/
theorem overlap_ge_max_no_termination_witness :
    min (5 + 1) (pySplit (textA 3)).length - 1 ≤ 5 ∧
    chunkFuel (pySplit (textA 3)) 1 1 7 0 = none :=
  overlap_ge_max_no_termination (textA 3) 1 1 7 5 (by decide) (by decide) (by decide)

/-- Claim C4: for an input of between 1 and 800 words, chunking with
`max_words=800, overlap=50` produces exactly one chunk equal to the
whole whitespace-normalized text (the space-join of its words), and
`summarize_long_text` makes exactly one Summarizer call, on that chunk
with `max_length=130, min_length=50`, returning its result verbatim with
no final aggregation pass. -/
theorem summarize_single_chunk (S : String → Nat → Nat → String) (text : String)
    (h1 : 1 ≤ (pySplit text).length) (h2 : (pySplit text).length ≤ 800) :
    chunk_text_by_words text 800 50 = some [pyJoin (pySplit text)] ∧
    summarize_long_text S text =
      (S (pyJoin (pySplit text)) 130 50, [⟨pyJoin (pySplit text), 130, 50⟩]) := by
  have hne : (pySplit text).isEmpty = false := by
    cases h : pySplit text with
    | nil => rw [h] at h1; simp at h1
    | cons a t => rfl
  have hchunk : chunk_text_by_words text 800 50 = some [pyJoin (pySplit text)] := by
    simp only [chunk_text_by_words]
    rw [if_neg (by simp [hne])]
    simp only [chunkFuel]
    rw [if_pos (by omega), if_pos (by omega),
      show min (0 + 800) (pySplit text).length - 0 = (pySplit text).length by omega,
      List.drop_zero, List.take_length]
  refine ⟨hchunk, ?_⟩
  simp only [summarize_long_text]
  rw [hchunk]

/-- Witness for claim C4 at a ten-word input. -/
theorem summarize_single_chunk_witness :
    chunk_text_by_words (textA 10) 800 50 = some [pyJoin (pySplit (textA 10))] ∧
    summarize_long_text (fun _ _ _ => "s") (textA 10) =
      ((fun _ _ _ => "s") (pyJoin (pySplit (textA 10))) 130 50,
        [⟨pyJoin (pySplit (textA 10)), 130, 50⟩]) :=
  summarize_single_chunk (fun _ _ _ => "s") (textA 10) (by decide) (by decide)

/-- Chunking the concrete 2000-word text with the fixed policy
`max_words=800, overlap=50` yields exactly `ceil((2000-800)/750)+1 = 3`
chunks of 800, 800 and 500 words (ranges `[0,800)`, `[750,1550)`,
`[1500,2000)`). -/
lemma chunk_textA_2000 :
    chunk_text_by_words (textA 2000) 800 50 =
      some [pyJoin (List.replicate 800 "a"), pyJoin (List.replicate 800 "a"),
        pyJoin (List.replicate 500 "a")] := by
  have hranges : chunk_ranges_by_words (textA 2000) 800 50 =
      some [(0, 800), (750, 1550), (1500, 2000)] := by
    simp only [chunk_ranges_by_words, pySplit_textA]
    rw [if_neg (by decide), List.length_replicate]
    decide
  rw [chunk_text_eq_render, hranges, pySplit_textA]
  simp only [Option.map_some', List.map_cons, List.map_nil, renderChunk,
    List.drop_replicate, List.take_replicate]
  norm_num

/-- Claim C1: whenever chunking with `max_words=800, overlap=50` yields
more than one chunk, `summarize_long_text` calls the Summarizer exactly
once per chunk, in chunk order, with `max_length=130, min_length=50`,
then makes exactly one additional final call with `max_length=160,
min_length=60` whose input is the space-join of the per-chunk summary
outputs in order, and returns that final call's result. -/
theorem summarize_multi_chunk (S : String → Nat → Nat → String) (text : String)
    (chunks : List String) (hc : chunk_text_by_words text 800 50 = some chunks)
    (h2 : 1 < chunks.length) :
    summarize_long_text S text =
      (S (pyJoin (chunks.map (fun c => S c 130 50))) 160 60,
        chunks.map (fun c => (⟨c, 130, 50⟩ : SummCall)) ++
          [⟨pyJoin (chunks.map (fun c => S c 130 50)), 160, 60⟩]) := by
  obtain ⟨a, b, t, rfl⟩ : ∃ a b t, chunks = a :: b :: t := by
    cases chunks with
    | nil => simp at h2
    | cons a t' =>
      cases t' with
      | nil => simp at h2
      | cons b t => exact ⟨a, b, t, rfl⟩
  simp only [summarize_long_text]
  rw [hc]

/-- Witness for claim C1 at the 2000-word input, exhibiting the three
per-chunk calls and the final aggregation call on the joined stub
outputs. -/
theorem summarize_multi_chunk_witness :
    summarize_long_text (fun _ _ _ => "s") (textA 2000) =
      ("s", [⟨pyJoin (List.replicate 800 "a"), 130, 50⟩,
        ⟨pyJoin (List.replicate 800 "a"), 130, 50⟩,
        ⟨pyJoin (List.replicate 500 "a"), 130, 50⟩,
        ⟨pyJoin ["s", "s", "s"], 160, 60⟩]) :=
  summarize_multi_chunk (fun _ _ _ => "s") (textA 2000)
    [pyJoin (List.replicate 800 "a"), pyJoin (List.replicate 800 "a"),
      pyJoin (List.replicate 500 "a")] chunk_textA_2000 (by decide)

/-- Claim C2: for `max_words > 0` and `0 ≤ overlap < max_words`, the
word-index ranges of the chunks cover `[0, N)` with no gaps, where `N`
is the number of whitespace-delimited words of the input: the first
chunk starts at word index 0, the last chunk ends at index `N`, each
chunk's start index is at most the previous chunk's end index, and every
index below `N` lies in some chunk's range; moreover no chunk is the
empty string unless the input has zero words, in which case the returned
sequence is empty. -/
theorem chunk_coverage (text : String) (maxW ov : Nat) (hmw : 0 < maxW)
    (hov : ov < maxW) :
    ∃ rs, chunk_ranges_by_words text maxW ov = some rs ∧
      chunk_text_by_words text maxW ov = some (rs.map (renderChunk (pySplit text))) ∧
      ((pySplit text).length = 0 → rs = []) ∧
      ((pySplit text).length ≠ 0 →
        rs.head?.map Prod.fst = some 0 ∧
        rs.getLast?.map Prod.snd = some (pySplit text).length ∧
        List.Chain' (fun a b => b.1 ≤ a.2) rs ∧
        (∀ i, i < (pySplit text).length → ∃ r ∈ rs, r.1 ≤ i ∧ i < r.2) ∧
        (∀ c ∈ rs.map (renderChunk (pySplit text)), c ≠ "")) := by
  by_cases hN : (pySplit text).length = 0
  · refine ⟨[], chunk_ranges_empty text maxW ov hN, ?_, fun _ => rfl,
      fun h => absurd hN h⟩
    rw [chunk_text_eq_render, chunk_ranges_empty text maxW ov hN]
    rfl
  · obtain ⟨rs, hrs, hne, hhead, hlast, hchain, hmem, -⟩ :=
      rangesFuel_spec (pySplit text).length maxW ov hov
        ((pySplit text).length + 1) 0 (by omega) (by omega)
    have hranges : chunk_ranges_by_words text maxW ov = some rs := by
      rw [chunk_ranges_run text maxW ov hN, hrs]
    have hchainW : List.Chain' (fun a b : Nat × Nat => b.1 ≤ a.2) rs :=
      hchain.imp (fun a b hab => by omega)
    refine ⟨rs, hranges, ?_, fun h => absurd h hN, fun _ => ⟨?_, ?_, hchainW, ?_, ?_⟩⟩
    · rw [chunk_text_eq_render, hranges]
      rfl
    · rw [hhead]
      rfl
    · exact hlast
    · intro i hi
      exact chain_covers rs 0 (pySplit text).length hchainW (by rw [hhead]; rfl)
        hlast i (Nat.zero_le i) hi
    · intro c hc
      rcases List.mem_map.mp hc with ⟨r, hr, rfl⟩
      obtain ⟨hr1, hr2⟩ := hmem r hr
      have hr3 : r.2 ≤ (pySplit text).length := by omega
      have hslice : ((pySplit text).drop r.1).take (r.2 - r.1) ≠ [] := by
        intro hnil
        have hlen := congrArg List.length hnil
        rw [List.length_take, List.length_drop] at hlen
        simp at hlen
        omega
      obtain ⟨w, ws', hws⟩ := List.exists_cons_of_ne_nil hslice
      unfold renderChunk
      rw [hws]
      refine pyJoin_ne_empty w ws' ?_
      have hw : w ∈ pySplit text := by
        refine List.drop_subset r.1 (pySplit text)
          (List.take_subset (r.2 - r.1) _ ?_)
        rw [hws]
        exact List.mem_cons_self _ _
      exact (pySplit_good text w hw).1

/-- Witness for claim C2 at a five-word input with `max_words=2`,
`overlap=1`. -/
theorem chunk_coverage_witness :
    ∃ rs, chunk_ranges_by_words (textA 5) 2 1 = some rs ∧
      chunk_text_by_words (textA 5) 2 1 = some (rs.map (renderChunk (pySplit (textA 5)))) ∧
      ((pySplit (textA 5)).length = 0 → rs = []) ∧
      ((pySplit (textA 5)).length ≠ 0 →
        rs.head?.map Prod.fst = some 0 ∧
        rs.getLast?.map Prod.snd = some (pySplit (textA 5)).length ∧
        List.Chain' (fun a b => b.1 ≤ a.2) rs ∧
        (∀ i, i < (pySplit (textA 5)).length → ∃ r ∈ rs, r.1 ≤ i ∧ i < r.2) ∧
        (∀ c ∈ rs.map (renderChunk (pySplit (textA 5))), c ≠ "")) :=
  chunk_coverage (textA 5) 2 1 (by decide) (by decide)

/-- Claim C3: for `0 ≤ overlap < max_words`, the chunking loop
terminates in at most `ceil(N/(max_words-overlap))` iterations — it
succeeds when given exactly that much fuel (one unit per iteration) and
emits one chunk per iteration, hence at most that many chunks — and the
end index of the chunks strictly increases chunk-over-chunk. -/
theorem chunk_termination_bound (text : String) (maxW ov : Nat) (hov : ov < maxW) :
    ∃ rs, chunk_ranges_by_words text maxW ov = some rs ∧
      chunk_text_by_words text maxW ov = some (rs.map (renderChunk (pySplit text))) ∧
      rs.length ≤ ((pySplit text).length + (maxW - ov) - 1) / (maxW - ov) ∧
      List.Chain' (fun a b => a.2 < b.2) rs ∧
      (0 < (pySplit text).length →
        chunkRangesFuel (pySplit text).length maxW ov
          (((pySplit text).length + (maxW - ov) - 1) / (maxW - ov)) 0 = some rs) := by
  by_cases hN : (pySplit text).length = 0
  · refine ⟨[], chunk_ranges_empty text maxW ov hN, ?_, by simp, List.chain'_nil,
      fun h => absurd hN (by omega)⟩
    rw [chunk_text_eq_render, chunk_ranges_empty text maxW ov hN]
    rfl
  · obtain ⟨rs, hrs, hne, hhead, hlast, hchain, hmem, hlen⟩ :=
      rangesFuel_spec (pySplit text).length maxW ov hov
        ((pySplit text).length + 1) 0 (by omega) (by omega)
    have hranges : chunk_ranges_by_words text maxW ov = some rs := by
      rw [chunk_ranges_run text maxW ov hN, hrs]
    have hd : 0 < maxW - ov := by omega
    have hlen1 : 1 ≤ rs.length := List.length_pos.mpr hne
    have hbound : rs.length ≤ ((pySplit text).length + (maxW - ov) - 1) / (maxW - ov) := by
      have hstep : rs.length - 1 ≤ ((pySplit text).length - 1) / (maxW - ov) := by
        rw [Nat.le_div_iff_mul_le hd, Nat.mul_comm (rs.length - 1) (maxW - ov)]
        generalize hA : (maxW - ov) * (rs.length - 1) = A at hlen ⊢
        omega
      have heq : ((pySplit text).length - 1) / (maxW - ov) + 1 =
          ((pySplit text).length + (maxW - ov) - 1) / (maxW - ov) := by
        rw [show (pySplit text).length + (maxW - ov) - 1 =
          ((pySplit text).length - 1) + (maxW - ov) by omega, Nat.add_div_right _ hd]
      omega
    refine ⟨rs, hranges, ?_, hbound, hchain.imp (fun a b hab => hab.2.1), fun _ => ?_⟩
    · rw [chunk_text_eq_render, hranges]
      rfl
    · exact rangesFuel_mono (pySplit text).length maxW ov
        ((pySplit text).length + 1) 0 rs (by omega) hrs _ hbound

/-- Witness for claim C3 at a five-word input with `max_words=3`,
`overlap=1`. -/
theorem chunk_termination_bound_witness :
    ∃ rs, chunk_ranges_by_words (textA 5) 3 1 = some rs ∧
      chunk_text_by_words (textA 5) 3 1 = some (rs.map (renderChunk (pySplit (textA 5)))) ∧
      rs.length ≤ ((pySplit (textA 5)).length + (3 - 1) - 1) / (3 - 1) ∧
      List.Chain' (fun a b => a.2 < b.2) rs ∧
      (0 < (pySplit (textA 5)).length →
        chunkRangesFuel (pySplit (textA 5)).length 3 1
          (((pySplit (textA 5)).length + (3 - 1) - 1) / (3 - 1)) 0 = some rs) :=
  chunk_termination_bound (textA 5) 3 1 (by decide)

/-- Chunking the concrete 801-word text with the fixed policy
`max_words=800, overlap=50` traverses the ranges `[0,800)`, `[750,801)`. -/
lemma ranges_textA_801 :
    chunk_ranges_by_words (textA 801) 800 50 = some [(0, 800), (750, 801)] := by
  simp only [chunk_ranges_by_words, pySplit_textA]
  rw [if_neg (by decide), List.length_replicate]
  decide

/-- Claim C6: for `max_words=800, overlap=50`, every pair of consecutive
chunks shares exactly `min(50, end_of_prev)` word indices — the next
chunk's range begins exactly `overlap` words before the previous chunk's
end index, clamped at 0 (truncated natural subtraction) — the condition
applying to every chunk that has a successor, i.e. unless the previous
chunk was the final one. -/
theorem chunk_overlap_shared_words (text : String) (rs : List (Nat × Nat))
    (h : chunk_ranges_by_words text 800 50 = some rs) :
    List.Chain' (fun a b => b.1 = a.2 - 50 ∧
      (Finset.Ico a.1 a.2 ∩ Finset.Ico b.1 b.2).card = min 50 a.2) rs := by
  by_cases hN : (pySplit text).length = 0
  · rw [chunk_ranges_empty text 800 50 hN] at h
    obtain rfl := Option.some.inj h
    exact List.chain'_nil
  · obtain ⟨rs₀, hrs₀, -, -, -, hchain, -, -⟩ :=
      rangesFuel_spec (pySplit text).length 800 50 (by omega)
        ((pySplit text).length + 1) 0 (by omega) (by omega)
    rw [chunk_ranges_run text 800 50 hN, hrs₀] at h
    obtain rfl := Option.some.inj h
    refine hchain.imp (fun a b hab => ?_)
    obtain ⟨h1, h2, h3, h4⟩ := hab
    refine ⟨h1, ?_⟩
    rw [Finset.Ico_inter_Ico, Nat.card_Ico]
    omega

/-- Witness for claim C6 at the 801-word input: the two chunks share
exactly the 50 word indices `[750, 800)`. -/
theorem chunk_overlap_shared_words_witness :
    List.Chain' (fun a b => b.1 = a.2 - 50 ∧
      (Finset.Ico a.1 a.2 ∩ Finset.Ico b.1 b.2).card = min 50 a.2)
      [(0, 800), (750, 801)] :=
  chunk_overlap_shared_words (textA 801) [(0, 800), (750, 801)] ranges_textA_801

/-- Claim C7: for every `max_words > 0` and any `overlap`, each chunk
returned by `chunk_text_by_words` contains at most `max_words`
whitespace-delimited words. -/
theorem chunk_at_most_max_words (text : String) (maxW ov : Nat) (hmw : 0 < maxW)
    (cs : List String) (h : chunk_text_by_words text maxW ov = some cs) :
    ∀ c ∈ cs, (pySplit c).length ≤ maxW := by
  intro c hc
  rw [chunk_text_eq_render] at h
  rcases Option.map_eq_some'.mp h with ⟨rs, hrs, rfl⟩
  rcases List.mem_map.mp hc with ⟨r, hr, rfl⟩
  have hfacts : r.1 < r.2 ∧ r.2 - r.1 ≤ maxW ∧ r.2 ≤ (pySplit text).length := by
    by_cases hN : (pySplit text).length = 0
    · rw [chunk_ranges_empty text maxW ov hN] at hrs
      obtain rfl := Option.some.inj hrs
      simp at hr
    · rw [chunk_ranges_run text maxW ov hN] at hrs
      exact rangesFuel_width (pySplit text).length maxW ov hmw _ 0 rs hrs r hr
  have hgood : ∀ w ∈ ((pySplit text).drop r.1).take (r.2 - r.1),
      w.data ≠ [] ∧ ∀ ch ∈ w.data, isWs ch = false := fun w hw =>
    pySplit_good text w (List.drop_subset _ _ (List.take_subset _ _ hw))
  unfold renderChunk
  rw [pySplit_pyJoin _ hgood, List.length_take, List.length_drop]
  omega

/-- Witness for claim C7 at a five-word input with `max_words=2`,
`overlap=0`, instantiated at the first returned chunk. -/
theorem chunk_at_most_max_words_witness : (pySplit "a a").length ≤ 2 :=
  chunk_at_most_max_words (textA 5) 2 0 (by decide) ["a a", "a a", "a"] (by decide)
    "a a" (by decide)

end App
